import Mathlib

/-!
Verification of the stream-membership model-composition engine.

This file is a shallow embedding of the relevant parts of
`stream_membership/model.py` and `stream_membership/truncatedgridgmm.py`:

* Python strings are embedded as `List Char` (`PyStr`);
* a `CoordinateKey` (`str | tuple[str, ...]` in the source) is `CKey`;
* Python dictionaries are embedded as association lists in insertion order
  (dictionary keys are unique, which appears as `Nodup` hypotheses);
* code that can raise returns `Option` or `Except`;
* jax arrays of reals become lists of `ℝ` (or index functions for fixed-shape
  arrays), and jax numerical primitives are given their mathematical
  real-number semantics.
-/

/-- A Python string, embedded character by character. -/
abbrev PyStr := List Char

/-- A CoordinateKey of the model: either a single coordinate name or a tuple
of names modeled jointly (`str | tuple` keys of `coord_distributions`). -/
inductive CKey where
  | single (s : PyStr)
  | tup (names : List PyStr)
deriving DecidableEq, Repr

/-! ## Naming codec: `ModelComponent._make_numpyro_name` / `_expand_numpyro_name`

The source joins tuple coordinate names with the character `-` and joins the
component name, coordinate segment and argument name with `:`; decoding splits
on `:` and re-splits the coordinate segment on `-` when a `-` is present. -/

/-- Python `s.split(sep)` for a one-character separator `sep`: splits at every
occurrence, keeping empty pieces (`"".split(sep) == [""]`). -/
def pySplit (sep : Char) : PyStr → List PyStr
  | [] => [[]]
  | c :: rest =>
    if c = sep then [] :: pySplit sep rest
    else
      match pySplit sep rest with
      | [] => [[c]]
      | h :: t => (c :: h) :: t

/-- Python `sep.join(parts)` for a one-character separator. -/
def pyJoin (sep : Char) : List PyStr → PyStr
  | [] => []
  | [s] => s
  | s :: rest => s ++ sep :: pyJoin sep rest

/-- The coordinate segment of a numpyro name: `"-".join(coord_name)` when the
key is a tuple, the name itself otherwise (model.py lines 406-407). -/
def coordNameStr : CKey → PyStr
  | .single s => s
  | .tup names => pyJoin '-' names

/-- `ModelComponent._make_numpyro_name(coord_name, arg_name)` (model.py
lines 388-412): produces `f"{name}:{coord}"` or `f"{name}:{coord}:{arg}"`. -/
def make_numpyro_name (selfName : PyStr) (coord_name : CKey) (arg_name : Option PyStr) :
    PyStr :=
  let base := selfName ++ ':' :: coordNameStr coord_name
  match arg_name with
  | none => base
  | some a => base ++ ':' :: a

/-- `ModelComponent._expand_numpyro_name` (model.py lines 414-433): split on
`:`; the coordinate bit becomes a tuple key iff it contains `-`.  Indexing
`bits[0] / bits[1] / bits[2]` raises (here: `none`) when fewer than three
bits exist. -/
def expand_numpyro_name (numpyro_name : PyStr) : Option (PyStr × CKey × PyStr) :=
  let bits := pySplit ':' numpyro_name
  match bits[0]?, bits[1]?, bits[2]? with
  | some b0, some b1, some b2 =>
      some (b0, if '-' ∈ b1 then CKey.tup (pySplit '-' b1) else CKey.single b1, b2)
  | _, _, _ => none

theorem pySplit_of_not_mem {sep : Char} {s : PyStr} (h : sep ∉ s) :
    pySplit sep s = [s] := by
  induction s with
  | nil => rfl
  | cons c rest ih =>
    simp only [List.mem_cons, not_or] at h
    have hc : ¬ c = sep := fun e => h.1 e.symm
    simp [pySplit, hc, ih h.2]

theorem pySplit_append {sep : Char} {a : PyStr} (r : PyStr) (h : sep ∉ a) :
    pySplit sep (a ++ sep :: r) = a :: pySplit sep r := by
  induction a with
  | nil => simp [pySplit]
  | cons c rest ih =>
    simp only [List.mem_cons, not_or] at h
    have hc : ¬ c = sep := fun e => h.1 e.symm
    simp [pySplit, hc, ih h.2]

theorem pySplit_pyJoin {sep : Char} :
    ∀ {l : List PyStr}, l ≠ [] → (∀ s ∈ l, sep ∉ s) → pySplit sep (pyJoin sep l) = l
  | [], h, _ => absurd rfl h
  | [s], _, hall => by
    simp [pyJoin, pySplit_of_not_mem (hall s (by simp))]
  | s :: t :: rest, _, hall => by
    have h1 : sep ∉ s := hall s (by simp)
    have hrec := @pySplit_pyJoin sep (t :: rest) (by simp)
      (fun x hx => hall x (List.mem_cons_of_mem s hx))
    simp only [pyJoin]
    rw [pySplit_append _ h1, hrec]

theorem mem_pyJoin_two {sep : Char} (s t : PyStr) (rest : List PyStr) :
    sep ∈ pyJoin sep (s :: t :: rest) := by
  simp [pyJoin]

theorem mem_of_mem_pyJoin {sep c : Char} :
    ∀ {l : List PyStr}, c ∈ pyJoin sep l → c = sep ∨ ∃ s ∈ l, c ∈ s
  | [], h => by simp [pyJoin] at h
  | [s], h => Or.inr ⟨s, by simp, by simpa [pyJoin] using h⟩
  | s :: t :: rest, h => by
    simp only [pyJoin] at h
    rcases List.mem_append.mp h with h1 | h2
    · exact Or.inr ⟨s, by simp, h1⟩
    · rcases List.mem_cons.mp h2 with h3 | h4
      · exact Or.inl h3
      · rcases mem_of_mem_pyJoin h4 with h5 | ⟨u, hu, hcu⟩
        · exact Or.inl h5
        · exact Or.inr ⟨u, List.mem_cons_of_mem s hu, hcu⟩

/-- Coordinate keys in the claim's domain, amended: names carry neither
separator, and a tuple key has at least two names. -/
def ValidCKey : CKey → Prop
  | .single s => ':' ∉ s ∧ '-' ∉ s
  | .tup names => 2 ≤ names.length ∧ ∀ s ∈ names, ':' ∉ s ∧ '-' ∉ s

theorem not_colon_mem_coordNameStr {k : CKey} (hk : ValidCKey k) :
    ':' ∉ coordNameStr k := by
  cases k with
  | single s => exact hk.1
  | tup names =>
    intro hmem
    rcases mem_of_mem_pyJoin hmem with h | ⟨s, hs, hcs⟩
    · exact absurd h (by decide)
    · exact (hk.2 s hs).1 hcs

/-- C2 (amended): for component name, coordinate key and argument name free of
the reserved separators, with tuple keys of at least two names,
`_expand_numpyro_name` inverts `_make_numpyro_name`, reconstructing a tuple
CoordinateKey exactly when the coordinate segment contains `-`. -/
theorem C2_codec_roundtrip (selfName : PyStr) (k : CKey) (arg : PyStr)
    (hs : ':' ∉ selfName) (hk : ValidCKey k) (ha : ':' ∉ arg) :
    expand_numpyro_name (make_numpyro_name selfName k (some arg)) =
      some (selfName, k, arg) := by
  have hm : ':' ∉ coordNameStr k := not_colon_mem_coordNameStr hk
  have hname : make_numpyro_name selfName k (some arg)
      = selfName ++ ':' :: (coordNameStr k ++ ':' :: arg) := by
    simp [make_numpyro_name]
  have hbits : pySplit ':' (make_numpyro_name selfName k (some arg))
      = [selfName, coordNameStr k, arg] := by
    rw [hname, pySplit_append _ hs, pySplit_append _ hm, pySplit_of_not_mem ha]
  cases k with
  | single s =>
    have hd : '-' ∉ s := hk.2
    simp [expand_numpyro_name, hbits, coordNameStr, hd]
  | tup names =>
    obtain ⟨a, t, rfl⟩ : ∃ a t, names = a :: t := by
      cases names with
      | nil => simpa using hk.1
      | cons a t => exact ⟨a, t, rfl⟩
    obtain ⟨b, r, rfl⟩ : ∃ b r, t = b :: r := by
      cases t with
      | nil => simpa using hk.1
      | cons b r => exact ⟨b, r, rfl⟩
    have hdash : '-' ∈ coordNameStr (CKey.tup (a :: b :: r)) := mem_pyJoin_two a b r
    have hsplit : pySplit '-' (coordNameStr (CKey.tup (a :: b :: r))) = a :: b :: r :=
      pySplit_pyJoin (by simp) (fun s hs2 => (hk.2 s hs2).2)
    simp [expand_numpyro_name, hbits, hdash, hsplit]

/-- Witness for C2 at the concrete triple `("bg", ("pm1","pm2"), "loc")`. -/
theorem C2_codec_roundtrip_witness :
    expand_numpyro_name (make_numpyro_name ['b', 'g']
        (CKey.tup [['p', 'm', '1'], ['p', 'm', '2']]) (some ['l', 'o', 'c'])) =
      some (['b', 'g'], CKey.tup [['p', 'm', '1'], ['p', 'm', '2']], ['l', 'o', 'c']) :=
  C2_codec_roundtrip ['b', 'g'] (CKey.tup [['p', 'm', '1'], ['p', 'm', '2']])
    ['l', 'o', 'c'] (by decide) ⟨by decide, by decide⟩ (by decide)

/-- C2 counterexample to the claim as stated: the one-element tuple key
`("x",)` carries no reserved separator, yet its encoded name decodes to the
plain string key `"x"`, not back to the tuple. -/
theorem C2_one_tuple_counterexample :
    expand_numpyro_name (make_numpyro_name ['c'] (CKey.tup [['x']]) (some ['a']))
        = some (['c'], CKey.single ['x'], ['a']) ∧
      expand_numpyro_name (make_numpyro_name ['c'] (CKey.tup [['x']]) (some ['a']))
        ≠ some (['c'], CKey.tup [['x']], ['a']) := by
  decide

/-! ## Dependency resolver: `ModelComponent._sample_order` (model.py lines 521-548)

The source first appends every key of `coord_distributions` that has no entry
in `conditional_data` (declaration order), then runs up to 128 relaxation
rounds; each round scans the remaining `conditional_data` entries and moves
the first one whose dependencies (the deduplicated values of its argument
map) are all already placed, breaking out of the scan after one placement.
A dependency `dep` is checked with `dep in sample_order`, a comparison of a
plain string against keys, which matches only the single key `dep`.
Exhausting the 128 rounds raises a circular-dependency error (`none` here). -/

/-- Python `dep in sample_order`: a string equals a key iff the key is the
single key of that name. -/
def memDep (dep : PyStr) (order : List CKey) : Bool :=
  order.any (fun k => decide (k = CKey.single dep))

/-- Python `coord_name in conditional_data` over the pending entries. -/
def keyMem (pending : List (CKey × List PyStr)) (k : CKey) : Bool :=
  pending.any (fun e => decide (e.1 = k))

/-- One scan of the inner `for` loop: move the first pending entry whose
dependencies are all satisfied, keeping the rest in order. -/
def placeFirst (order : List CKey) :
    List (CKey × List PyStr) → Option (CKey × List (CKey × List PyStr))
  | [] => none
  | (k, deps) :: rest =>
    if deps.all (fun d => memDep d order) then some (k, rest)
    else (placeFirst order rest).map (fun p => (p.1, (k, deps) :: p.2))

/-- The bounded relaxation loop (`for _ in range(128)` with its `else` clause
raising): one unit of fuel per round; fuel 0 is the raise. -/
def sampleOrderLoop : Nat → List (CKey × List PyStr) → List CKey → Option (List CKey)
  | 0, _, _ => none
  | fuel + 1, pending, order =>
    match placeFirst order pending with
    | none => if pending.isEmpty then some order else sampleOrderLoop fuel pending order
    | some (k, pending1) =>
      if pending1.isEmpty then some (order ++ [k])
      else sampleOrderLoop fuel pending1 (order ++ [k])

/-- Model of Python `list(set(values))`: deduplication (the set's iteration
order is unspecified; downstream code only tests membership). -/
def pyDedup : List PyStr → List PyStr
  | [] => []
  | a :: rest =>
    let r := pyDedup rest
    if a ∈ r then r else a :: r

/-- `list(set(v.values()))` over an argument map. -/
def depsOfArgMap (m : List (PyStr × PyStr)) : List PyStr :=
  pyDedup (m.map Prod.snd)

/-- `ModelComponent._sample_order`: keys of `coord_distributions` in
declaration order, `conditional_data` as an association list from keys to
argument maps `arg ↦ source coordinate name`. -/
def sample_order (coordKeys : List CKey)
    (conditional_data : List (CKey × List (PyStr × PyStr))) : Option (List CKey) :=
  let cond := conditional_data.map (fun e => (e.1, depsOfArgMap e.2))
  let base := coordKeys.filter (fun c => ! keyMem cond c)
  sampleOrderLoop 128 cond base

/-- `a` occurs strictly before `b` in `l`: some prefix of `l` contains `a`
but not `b`. -/
def Precedes (l : List CKey) (a b : CKey) : Prop :=
  ∃ l1 l2, l = l1 ++ l2 ∧ a ∈ l1 ∧ b ∉ l1

theorem Precedes.append_right {l : List CKey} {a b : CKey} (h : Precedes l a b)
    (l3 : List CKey) : Precedes (l ++ l3) a b := by
  obtain ⟨l1, l2, rfl, ha, hb⟩ := h
  exact ⟨l1, l2 ++ l3, by simp, ha, hb⟩

theorem memDep_iff {dep : PyStr} {order : List CKey} :
    memDep dep order = true ↔ CKey.single dep ∈ order := by
  simp [memDep]

theorem keyMem_iff {pending : List (CKey × List PyStr)} {k : CKey} :
    keyMem pending k = true ↔ k ∈ pending.map Prod.fst := by
  simp [keyMem, List.mem_map]

theorem pyDedup_mem {a : PyStr} : ∀ {l : List PyStr}, a ∈ pyDedup l ↔ a ∈ l
  | [] => Iff.rfl
  | b :: rest => by
    by_cases hb : b ∈ pyDedup rest
    · simp only [pyDedup, if_pos hb, List.mem_cons]
      rw [pyDedup_mem]
      constructor
      · exact Or.inr
      · rintro (rfl | h)
        · exact pyDedup_mem.mp hb
        · exact h
    · simp only [pyDedup, if_neg hb, List.mem_cons]
      rw [pyDedup_mem]

theorem placeFirst_eq_none {order : List CKey} :
    ∀ {P : List (CKey × List PyStr)}, placeFirst order P = none →
      ∀ e ∈ P, ¬ e.2.all (fun d => memDep d order) = true
  | [], _, e, he => absurd he (by simp)
  | (k, deps) :: rest, h, e, he => by
    rw [placeFirst] at h
    by_cases hall : deps.all (fun d => memDep d order) = true
    · rw [if_pos hall] at h
      exact absurd h (by simp)
    · rw [if_neg hall] at h
      have hrest : placeFirst order rest = none := by
        cases hr : placeFirst order rest with
        | none => rfl
        | some p =>
          rw [hr] at h
          simp at h
      rcases List.mem_cons.mp he with rfl | hmem
      · exact hall
      · exact placeFirst_eq_none hrest e hmem

theorem placeFirst_eq_some {order : List CKey} :
    ∀ {P : List (CKey × List PyStr)} {k : CKey} {P1 : List (CKey × List PyStr)},
      placeFirst order P = some (k, P1) →
      ∃ deps A B, P = A ++ (k, deps) :: B ∧ P1 = A ++ B ∧
        deps.all (fun d => memDep d order) = true
  | [], k, P1, h => by simp [placeFirst] at h
  | (k0, deps0) :: rest, k, P1, h => by
    rw [placeFirst] at h
    by_cases hall : deps0.all (fun d => memDep d order) = true
    · rw [if_pos hall] at h
      have hk : k0 = k ∧ rest = P1 := by
        have := Option.some.inj h
        exact ⟨congrArg Prod.fst this, congrArg Prod.snd this⟩
      obtain ⟨rfl, rfl⟩ := hk
      exact ⟨deps0, [], rest, rfl, rfl, hall⟩
    · rw [if_neg hall] at h
      cases hr : placeFirst order rest with
      | none =>
        rw [hr] at h
        simp at h
      | some p =>
        rw [hr] at h
        have hp := Option.some.inj h
        obtain ⟨k1, P2⟩ := p
        have hk1 : k1 = k := congrArg Prod.fst hp
        have hP1 : (k0, deps0) :: P2 = P1 := congrArg Prod.snd hp
        subst hk1
        obtain ⟨deps, A, B, hrest, hP2, hsat⟩ := placeFirst_eq_some hr
        refine ⟨deps, (k0, deps0) :: A, B, ?_, ?_, hsat⟩
        · simp [hrest]
        · rw [← hP1, hP2]
          rfl

theorem filter_perm_extract {p q : CKey → Bool} {k : CKey}
    (hpq : ∀ c, q c = (p c && ! decide (c = k))) (hpk : p k = true) :
    ∀ {coords : List CKey}, coords.Nodup → k ∈ coords →
      List.Perm (coords.filter p) (k :: coords.filter q)
  | [], _, hk => absurd hk (by simp)
  | c :: t, hnd, hk => by
    rcases List.mem_cons.mp hk with rfl | hkt
    · have hknt : k ∉ t := (List.nodup_cons.mp hnd).1
      have hq : q k = false := by
        rw [hpq]
        simp
      have hfe : t.filter p = t.filter q := by
        refine List.filter_congr fun x hx => ?_
        have hxk : decide (x = k) = false :=
          decide_eq_false (ne_of_mem_of_not_mem hx hknt)
        rw [hpq x, hxk]
        simp
      simp [List.filter_cons, hpk, hq, hfe]
    · have hnd2 := List.nodup_cons.mp hnd
      have hcnk : ¬ (c = k) := fun e => hnd2.1 (e ▸ hkt)
      have hqc : q c = p c := by
        rw [hpq, decide_eq_false hcnk]
        simp
      have ih := filter_perm_extract hpq hpk hnd2.2 hkt
      by_cases hpc : p c = true
      · simp only [List.filter_cons, hpc, hqc, if_pos]
        exact (ih.cons c).trans (List.Perm.swap k c _)
      · have hpc2 : p c = false := by
          cases hb : p c with
          | true => exact absurd hb hpc
          | false => rfl
        simp only [List.filter_cons, hpc2, hqc, Bool.false_eq_true, if_false]
        exact ih

theorem eq_of_nodup_keys :
    ∀ {P : List (CKey × List PyStr)}, (P.map Prod.fst).Nodup →
      ∀ {e1 e2 : CKey × List PyStr}, e1 ∈ P → e2 ∈ P → e1.1 = e2.1 → e1 = e2
  | [], _, e1, _, h1, _, _ => absurd h1 (by simp)
  | a :: t, hnd, e1, e2, h1, h2, hk => by
    rw [List.map_cons, List.nodup_cons] at hnd
    rcases List.mem_cons.mp h1 with rfl | h1t
    · rcases List.mem_cons.mp h2 with rfl | h2t
      · rfl
      · refine absurd ?_ hnd.1
        rw [hk]
        exact List.mem_map_of_mem Prod.fst h2t
    · rcases List.mem_cons.mp h2 with rfl | h2t
      · refine absurd ?_ hnd.1
        rw [← hk]
        exact List.mem_map_of_mem Prod.fst h1t
      · exact eq_of_nodup_keys hnd.2 h1t h2t hk

theorem sampleOrderLoop_correct
    (coords : List CKey) (P : List (CKey × List PyStr)) (rank : CKey → Nat)
    (hcoords : coords.Nodup)
    (hPkeys : (P.map Prod.fst).Nodup)
    (hPsub : ∀ e ∈ P, e.1 ∈ coords)
    (hPdep : ∀ e ∈ P, ∀ d ∈ e.2, CKey.single d ∈ coords)
    (hPrank : ∀ e ∈ P, ∀ d ∈ e.2,
      CKey.single d ∈ P.map Prod.fst → rank (CKey.single d) < rank e.1) :
    ∀ (fuel : Nat), ∀ (Q : List (CKey × List PyStr)) (o : List CKey),
      0 < fuel → Q.length ≤ fuel →
      (∀ e ∈ Q, e ∈ P) → (Q.map Prod.fst).Nodup →
      List.Perm o (coords.filter (fun c => ! keyMem Q c)) →
      (∀ e ∈ P, keyMem Q e.1 = false → ∀ d ∈ e.2, Precedes o (CKey.single d) e.1) →
      ∃ res, sampleOrderLoop fuel Q o = some res ∧ List.Perm res coords ∧
        ∀ e ∈ P, ∀ d ∈ e.2, Precedes res (CKey.single d) e.1 := by
  intro fuel
  induction fuel with
  | zero =>
    intro Q o hf
    exact absurd hf (by simp)
  | succ f ih =>
    intro Q o _ hlen hQP hQnd hperm htopo
    cases Q with
    | nil =>
      refine ⟨o, rfl, ?_, ?_⟩
      · have hfe : coords.filter (fun c => ! keyMem [] c) = coords := by
          simp [keyMem]
        rw [hfe] at hperm
        exact hperm
      · intro e heP d hd
        exact htopo e heP rfl d hd
    | cons eh Q0 =>
      obtain ⟨m, hm⟩ : ∃ m, m ∈ (eh :: Q0).argmin (fun e => rank e.1) := by
        cases hA : (eh :: Q0).argmin (fun e => rank e.1) with
        | none => exact absurd (List.argmin_eq_none.mp hA) (by simp)
        | some m => exact ⟨m, rfl⟩
      have hmQ : m ∈ eh :: Q0 := List.argmin_mem hm
      have hmP : m ∈ P := hQP m hmQ
      have hsat : m.2.all (fun d => memDep d o) = true := by
        rw [List.all_eq_true]
        intro d hd
        have hdc : CKey.single d ∈ coords := hPdep m hmP d hd
        cases hkm : keyMem (eh :: Q0) (CKey.single d) with
        | true =>
          have hdk : CKey.single d ∈ (eh :: Q0).map Prod.fst := keyMem_iff.mp hkm
          obtain ⟨e2, he2Q, he2k⟩ := List.mem_map.mp hdk
          have hdkP : CKey.single d ∈ P.map Prod.fst :=
            List.mem_map.mpr ⟨e2, hQP e2 he2Q, he2k⟩
          have hlt : rank (CKey.single d) < rank m.1 := hPrank m hmP d hd hdkP
          have hle0 := List.le_of_mem_argmin he2Q hm
          simp only at hle0
          rw [he2k] at hle0
          omega
        | false =>
          have hmemf : CKey.single d ∈ coords.filter (fun c => ! keyMem (eh :: Q0) c) :=
            List.mem_filter.mpr ⟨hdc, by rw [hkm]; rfl⟩
          exact memDep_iff.mpr (hperm.mem_iff.mpr hmemf)
      obtain ⟨⟨k, Q1⟩, hp⟩ : ∃ kp, placeFirst o (eh :: Q0) = some kp := by
        cases hpc : placeFirst o (eh :: Q0) with
        | none => exact absurd hsat (placeFirst_eq_none hpc m hmQ)
        | some kp => exact ⟨kp, rfl⟩
      obtain ⟨deps, A, B, hQsplit, hQ1, hdepsSat⟩ := placeFirst_eq_some hp
      have hkQ : (k, deps) ∈ eh :: Q0 := by
        rw [hQsplit]
        exact List.mem_append.mpr (Or.inr (List.mem_cons_self _ _))
      have hkP : (k, deps) ∈ P := hQP _ hkQ
      have hkcoords : k ∈ coords := hPsub _ hkP
      have hkeysQ : (eh :: Q0).map Prod.fst = A.map Prod.fst ++ k :: B.map Prod.fst := by
        rw [hQsplit]
        simp
      have hkkeys : k ∈ (eh :: Q0).map Prod.fst := by
        rw [hkeysQ]
        exact List.mem_append.mpr (Or.inr (List.mem_cons_self _ _))
      have hkQ1keys : k ∉ Q1.map Prod.fst := by
        have hnd := hQnd
        rw [hkeysQ, List.nodup_append] at hnd
        intro hmem
        rw [hQ1, List.map_append] at hmem
        rcases List.mem_append.mp hmem with hA2 | hB2
        · exact hnd.2.2 hA2 (List.mem_cons_self _ _)
        · exact (List.nodup_cons.mp hnd.2.1).1 hB2
      have hQ1sub : ∀ e ∈ Q1, e ∈ P := by
        intro e he
        rw [hQ1] at he
        rcases List.mem_append.mp he with h1 | h1
        · exact hQP e (by rw [hQsplit]; exact List.mem_append.mpr (Or.inl h1))
        · exact hQP e (by
            rw [hQsplit]
            exact List.mem_append.mpr (Or.inr (List.mem_cons_of_mem _ h1)))
      have hQ1nd : (Q1.map Prod.fst).Nodup := by
        have hsub : Q1.Sublist (eh :: Q0) := by
          rw [hQ1, hQsplit]
          exact (List.sublist_cons_self _ _).append_left A
        exact hQnd.sublist (hsub.map Prod.fst)
      have hkeyrel : ∀ c, (! keyMem (eh :: Q0) c) = ((! keyMem Q1 c) && ! decide (c = k)) := by
        intro c
        by_cases hck : c = k
        · subst hck
          have h1 : keyMem (eh :: Q0) c = true := keyMem_iff.mpr hkkeys
          rw [h1]
          simp
        · have hd1 : decide (k = c) = false := decide_eq_false (fun e => hck e.symm)
          have h2 : keyMem (eh :: Q0) c = keyMem Q1 c := by
            rw [hQsplit, hQ1]
            simp only [keyMem, List.any_append, List.any_cons]
            rw [hd1]
            simp
          rw [h2, decide_eq_false hck]
          simp
      have hkQ1f : keyMem Q1 k = false := by
        cases hkm : keyMem Q1 k with
        | false => rfl
        | true => exact absurd (keyMem_iff.mp hkm) hkQ1keys
      have hfp := @filter_perm_extract (fun c => ! keyMem Q1 c)
        (fun c => ! keyMem (eh :: Q0) c) k hkeyrel
        (by simp [hkQ1f]) coords hcoords hkcoords
      have hperm1 : List.Perm (o ++ [k]) (coords.filter (fun c => ! keyMem Q1 c)) :=
        ((List.perm_append_singleton k o).trans (hperm.cons k)).trans hfp.symm
      have hko : k ∉ o := by
        intro hko
        have h1 := hperm.mem_iff.mp hko
        have h2 := (List.mem_filter.mp h1).2
        have h3 : keyMem (eh :: Q0) k = true := keyMem_iff.mpr hkkeys
        rw [h3] at h2
        exact absurd h2 (by simp)
      have htopo1 : ∀ e ∈ P, keyMem Q1 e.1 = false → ∀ d ∈ e.2,
          Precedes (o ++ [k]) (CKey.single d) e.1 := by
        intro e heP hkeye d hd
        cases hkQe : keyMem (eh :: Q0) e.1 with
        | false => exact (htopo e heP hkQe d hd).append_right [k]
        | true =>
          have h1 := hkeyrel e.1
          rw [hkQe, hkeye] at h1
          have hek : e.1 = k := by
            by_contra hne
            rw [decide_eq_false hne] at h1
            simp at h1
          have he_eq : e = (k, deps) := eq_of_nodup_keys hPkeys heP hkP hek
          subst he_eq
          have hdo : CKey.single d ∈ o :=
            memDep_iff.mp (List.all_eq_true.mp hdepsSat d hd)
          exact ⟨o, [k], rfl, hdo, hko⟩
      have hlen1 : Q1.length + 1 = (eh :: Q0).length := by
        rw [hQsplit, hQ1]
        simp [List.length_append]
        omega
      cases hQ1e : Q1 with
      | nil =>
        refine ⟨o ++ [k], ?_, ?_, ?_⟩
        · rw [hQ1e] at hp
          simp [sampleOrderLoop, hp]
        · rw [hQ1e] at hperm1
          have hfe : coords.filter (fun c => ! keyMem [] c) = coords := by
            simp [keyMem]
          rw [hfe] at hperm1
          exact hperm1
        · intro e heP d hd
          refine htopo1 e heP ?_ d hd
          rw [hQ1e]
          rfl
      | cons e1 Q2 =>
        subst hQ1e
        have hlen2 : (e1 :: Q2).length ≤ f := by omega
        have hlen3 : Q2.length + 1 ≤ f := by simpa using hlen2
        obtain ⟨res, hres, hperm2, htopo2⟩ := ih (e1 :: Q2) (o ++ [k])
          (by omega) hlen2 hQ1sub hQ1nd hperm1 htopo1
        refine ⟨res, ?_, hperm2, htopo2⟩
        simp [sampleOrderLoop, hp, hres]

theorem mem_depsOfArgMap {d : PyStr} {m : List (PyStr × PyStr)} :
    d ∈ depsOfArgMap m ↔ ∃ av ∈ m, av.2 = d := by
  simp [depsOfArgMap, pyDedup_mem, List.mem_map]

/-- C1 (amended): `_sample_order` succeeds and returns a topological
permutation of the declared keys for every acyclic dependency declaration in
which every dependency names a declared single (non-joint) CoordinateKey and
at most 128 keys carry dependencies.  Acyclicity is expressed as the
existence of a rank function decreasing along dependency edges, which for a
finite graph is equivalent to having no cycle. -/
theorem C1_sample_order_topological (coordKeys : List CKey)
    (conditional_data : List (CKey × List (PyStr × PyStr)))
    (hck : coordKeys.Nodup)
    (hkeys : (conditional_data.map Prod.fst).Nodup)
    (hsub : ∀ e ∈ conditional_data, e.1 ∈ coordKeys)
    (hdep : ∀ e ∈ conditional_data, ∀ av ∈ e.2, CKey.single av.2 ∈ coordKeys)
    (hacyc : ∃ rank : CKey → Nat, ∀ e ∈ conditional_data, ∀ av ∈ e.2,
      CKey.single av.2 ∈ conditional_data.map Prod.fst →
        rank (CKey.single av.2) < rank e.1)
    (hlen : conditional_data.length ≤ 128) :
    ∃ res, sample_order coordKeys conditional_data = some res ∧
      List.Perm res coordKeys ∧
      ∀ e ∈ conditional_data, ∀ av ∈ e.2, Precedes res (CKey.single av.2) e.1 := by
  obtain ⟨rank, hrank⟩ := hacyc
  set P := conditional_data.map (fun e => (e.1, depsOfArgMap e.2)) with hP
  have hPmap : P.map Prod.fst = conditional_data.map Prod.fst := by
    simp [hP, List.map_map, Function.comp]
  have H := sampleOrderLoop_correct coordKeys P rank hck
    (by rw [hPmap]; exact hkeys)
    (by
      intro e' he'
      obtain ⟨e, he, rfl⟩ := List.mem_map.mp he'
      exact hsub e he)
    (by
      intro e' he' d hd
      obtain ⟨e, he, rfl⟩ := List.mem_map.mp he'
      obtain ⟨av, hav, rfl⟩ := mem_depsOfArgMap.mp hd
      exact hdep e he av hav)
    (by
      intro e' he' d hd hdk
      obtain ⟨e, he, rfl⟩ := List.mem_map.mp he'
      obtain ⟨av, hav, rfl⟩ := mem_depsOfArgMap.mp hd
      refine hrank e he av hav ?_
      rw [hPmap] at hdk
      exact hdk)
    128 P (coordKeys.filter (fun c => ! keyMem P c)) (by norm_num)
    (by simpa [hP] using hlen)
    (fun e he => he)
    (by rw [hPmap]; exact hkeys)
    (List.Perm.refl _)
    (by
      intro e' he' hkm d hd
      have hmem : keyMem P e'.1 = true :=
        keyMem_iff.mpr (List.mem_map_of_mem Prod.fst he')
      exact Bool.noConfusion (hmem.symm.trans hkm))
  obtain ⟨res, hres, hperm, htopo⟩ := H
  refine ⟨res, ?_, hperm, ?_⟩
  · simp only [sample_order]
    rw [← hP]
    exact hres
  · intro e he av hav
    exact htopo (e.1, depsOfArgMap e.2) (List.mem_map_of_mem _ he) av.2
      (mem_depsOfArgMap.mpr ⟨av, hav, rfl⟩)

/-- Witness for C1 at a concrete two-coordinate component where `y` depends
on `x`. -/
theorem C1_sample_order_topological_witness :
    ∃ res, sample_order [CKey.single ['x'], CKey.single ['y']]
        [(CKey.single ['y'], [(['l'], ['x'])])] = some res ∧
      List.Perm res [CKey.single ['x'], CKey.single ['y']] ∧
      ∀ e ∈ [(CKey.single ['y'], [(['l'], ['x'])])], ∀ av ∈ e.2,
        Precedes res (CKey.single av.2) e.1 :=
  C1_sample_order_topological [CKey.single ['x'], CKey.single ['y']]
    [(CKey.single ['y'], [(['l'], ['x'])])] (by decide) (by decide) (by decide)
    (by decide)
    ⟨fun k => if k = CKey.single ['y'] then 1 else 0, by decide⟩ (by decide)

/-- C1 counterexample to the claim as stated: the coordinate `z` depends on
`x`, which is declared only inside the joint key `("x","y")`.  The dependency
graph (one edge, `z` to `x`) has no cycle, witnessed by the rank conjunct,
yet the resolver exhausts its 128 rounds and raises, because the membership
test `dep in sample_order` compares the string `"x"` against keys and never
matches the tuple key. -/
theorem C1_counterexample :
    sample_order [CKey.tup [['x'], ['y']], CKey.single ['z']]
        [(CKey.single ['z'], [(['l'], ['x'])])] = none ∧
      (∃ rank : CKey → Nat, ∀ e ∈ [(CKey.single ['z'], [(['l'], ['x'])])],
        ∀ av ∈ e.2,
          CKey.single av.2 ∈ [(CKey.single ['z'], [(['l'], ['x'])])].map Prod.fst →
            rank (CKey.single av.2) < rank e.1) :=
  ⟨by decide, ⟨fun _ => 0, by decide⟩⟩

/-! ## `ModelComponent.__post_init__` (model.py lines 348-382)

Construction validates that `coord_distributions` and `coord_parameters`
have equal key sets, resolves `default_x_coord` (first key; its first name
when that key is a tuple), flattens the coordinate names, and rejects any
direct 2-cycle in `conditional_data`.  `_sample_order` is never invoked at
construction time. -/

/-- `self._coord_names`: flattened coordinate names across keys, in
declaration order (model.py lines 360-365). -/
def flatten_coord_names (keys : List CKey) : List PyStr :=
  keys.flatMap fun k =>
    match k with
    | .single s => [s]
    | .tup names => names

/-- Resolution of `default_x_coord` at construction (model.py lines 355-358):
a supplied value is kept as-is (no validation); otherwise the first declared
key, replaced by its first element when it is a tuple.  `none` models the
exception raised on an empty component or an empty tuple key. -/
def resolve_default_x_coord (default_x_coord : Option PyStr) (keys : List CKey) :
    Option PyStr :=
  match default_x_coord with
  | some s => some s
  | none =>
    match keys with
    | [] => none
    | CKey.single s :: _ => some s
    | CKey.tup names :: _ => names.head?

/-- `conditional_data.get(coord_name, {})`: the argument map attached to a
key, empty when absent (first match; dictionary keys are unique). -/
def condLookup (conditional_data : List (CKey × List (PyStr × PyStr))) (k : CKey) :
    List (PyStr × PyStr) :=
  ((conditional_data.find? fun e => decide (e.1 = k)).map Prod.snd).getD []

/-- The `(coord_name, val)` pairs collected at construction (model.py lines
375-378): one pair per conditional-data value of each declared key. -/
def circularPairs (coordDistKeys : List CKey)
    (conditional_data : List (CKey × List (PyStr × PyStr))) : List (CKey × PyStr) :=
  coordDistKeys.flatMap fun k =>
    (condLookup conditional_data k).map fun av => (k, av.2)

/-- `_pair[::-1] in _pairs` for some pair (model.py lines 379-382).  The
reversed pair `(val, coord_name)` compares a string against keys and a key
against strings, so it matches only entries whose key is the single key
`val` and whose value names `coord_name` when that is a single key. -/
def hasTwoCycle (pairs : List (CKey × PyStr)) : Bool :=
  pairs.any fun p =>
    pairs.any fun q => decide (q.1 = CKey.single p.2) && decide (p.1 = CKey.single q.2)

inductive PostInitError where
  | keysMismatch
  | emptyComponent
  | circularDependency
deriving DecidableEq, Repr

/-- Python `set(l1) == set(l2)`. -/
def sameKeySet (l1 l2 : List CKey) : Bool :=
  (l1.all fun k => l2.contains k) && (l2.all fun k => l1.contains k)

/-- `ModelComponent.__post_init__` (model.py lines 348-382), returning the
resolved `default_x_coord` and the flattened `_coord_names` on success. -/
def post_init (coordDistKeys coordParamKeys : List CKey)
    (default_x_coord : Option PyStr)
    (conditional_data : List (CKey × List (PyStr × PyStr))) :
    Except PostInitError (PyStr × List PyStr) :=
  if ¬ sameKeySet coordDistKeys coordParamKeys = true then .error .keysMismatch
  else
    match resolve_default_x_coord default_x_coord coordDistKeys with
    | none => .error .emptyComponent
    | some x =>
      if hasTwoCycle (circularPairs coordDistKeys conditional_data) = true then
        .error .circularDependency
      else .ok (x, flatten_coord_names coordDistKeys)

/-- C9: a direct 2-cycle between single coordinate keys A and B in
`conditional_data` makes construction fail with the circular-dependency
error, before any evaluation order is requested (`post_init` never invokes
`sample_order`). -/
theorem C9_two_cycle_fails_construction (coordDistKeys coordParamKeys : List CKey)
    (default_x_coord : Option PyStr)
    (conditional_data : List (CKey × List (PyStr × PyStr)))
    (A B : PyStr) (argAB argBA : PyStr) (x : PyStr)
    (hkeys : sameKeySet coordDistKeys coordParamKeys = true)
    (hx : resolve_default_x_coord default_x_coord coordDistKeys = some x)
    (hA : CKey.single A ∈ coordDistKeys) (hB : CKey.single B ∈ coordDistKeys)
    (hAB : (argAB, B) ∈ condLookup conditional_data (CKey.single A))
    (hBA : (argBA, A) ∈ condLookup conditional_data (CKey.single B)) :
    post_init coordDistKeys coordParamKeys default_x_coord conditional_data =
      .error .circularDependency := by
  have hpAB : (CKey.single A, B) ∈ circularPairs coordDistKeys conditional_data := by
    simp only [circularPairs, List.mem_flatMap]
    exact ⟨CKey.single A, hA, List.mem_map.mpr ⟨(argAB, B), hAB, rfl⟩⟩
  have hpBA : (CKey.single B, A) ∈ circularPairs coordDistKeys conditional_data := by
    simp only [circularPairs, List.mem_flatMap]
    exact ⟨CKey.single B, hB, List.mem_map.mpr ⟨(argBA, A), hBA, rfl⟩⟩
  have hcyc : hasTwoCycle (circularPairs coordDistKeys conditional_data) = true := by
    rw [hasTwoCycle, List.any_eq_true]
    refine ⟨(CKey.single A, B), hpAB, ?_⟩
    rw [List.any_eq_true]
    exact ⟨(CKey.single B, A), hpBA, by simp⟩
  rw [post_init, if_neg (by rw [hkeys]; simp), hx]
  simp [hcyc]

/-- Witness for C9: the component `{"a": ..., "b": ...}` where `a` reads
from `b` and `b` reads from `a`. -/
theorem C9_two_cycle_fails_construction_witness :
    post_init [CKey.single ['a'], CKey.single ['b']]
        [CKey.single ['b'], CKey.single ['a']] none
        [(CKey.single ['a'], [(['u'], ['b'])]), (CKey.single ['b'], [(['v'], ['a'])])] =
      .error .circularDependency :=
  C9_two_cycle_fails_construction [CKey.single ['a'], CKey.single ['b']]
    [CKey.single ['b'], CKey.single ['a']] none
    [(CKey.single ['a'], [(['u'], ['b'])]), (CKey.single ['b'], [(['v'], ['a'])])]
    ['a'] ['b'] ['u'] ['v'] ['a'] (by decide) (by decide) (by decide) (by decide)
    (by decide) (by decide)

/-- C6 counterexample to the claim as stated: with first key the joint
`("x","y")`, the defaulted `default_x_coord` is `"x"`, a name that IS part
of a joint tuple CoordinateKey (and no validation rejects it). -/
theorem C6_counterexample :
    resolve_default_x_coord none [CKey.tup [['x'], ['y']], CKey.single ['z']] =
        some ['x'] ∧
      CKey.tup [['x'], ['y']] ∈ [CKey.tup [['x'], ['y']], CKey.single ['z']] ∧
      ['x'] ∈ [['x'], ['y']] := by
  decide

/-- C6 (amended): when not supplied, `default_x_coord` is the first declared
coordinate name, i.e. the head of the flattened `_coord_names` (the key
itself when a string, its first element when a tuple) - possibly a name
inside a joint key; a supplied value is kept without any validation. -/
theorem C6_default_x_coord (keys : List CKey) (k0 : CKey)
    (hne : keys.head? = some k0)
    (h0 : ∀ names, k0 = CKey.tup names → names ≠ []) :
    resolve_default_x_coord none keys = (flatten_coord_names keys).head? ∧
      ∀ s, resolve_default_x_coord (some s) keys = some s := by
  constructor
  · cases keys with
    | nil => simp at hne
    | cons k rest =>
      have hk : k = k0 := by simpa using hne
      cases k with
      | single s => simp [resolve_default_x_coord, flatten_coord_names]
      | tup names =>
        cases names with
        | nil => exact absurd rfl (h0 [] hk.symm)
        | cons n t => simp [resolve_default_x_coord, flatten_coord_names]
  · intro s
    rfl

/-- Witness for C6 at the two-coordinate component `{"p": ..., "q": ...}`. -/
theorem C6_default_x_coord_witness :
    resolve_default_x_coord none [CKey.single ['p'], CKey.single ['q']] =
        (flatten_coord_names [CKey.single ['p'], CKey.single ['q']]).head? ∧
      ∀ s, resolve_default_x_coord (some s) [CKey.single ['p'], CKey.single ['q']] =
        some s :=
  C6_default_x_coord [CKey.single ['p'], CKey.single ['q']] (CKey.single ['p'])
    (by decide) (fun _ h => CKey.noConfusion h)

/-! ## Grid evaluation at bin centers: `ModelMixin.evaluate_on_2d_grids`
(model.py lines 111-158)

The function receives 1-D grids of bin edges.  It builds conditional data
from the 1-D bin centers (line 112), evaluates the marginal x log-density at
the 1-D bin centers (line 147), and in both the marginalization path (lines
131-135) and the per-pair path (lines 157-164) averages the meshgrid arrays
diagonally, `0.5 * (grid[:-1, :-1] + grid[1:, 1:])`, before calling
`log_prob`. -/

/-- Bin centers of a 1-D grid of edges: `0.5 * (g[:-1] + g[1:])`. -/
def centers1d (g : List ℝ) : List ℝ :=
  List.zipWith (fun u v => 0.5 * (u + v)) g g.tail

/-- First output of `jnp.meshgrid(a, b)`: every row is `a`
(shape `len(b) × len(a)`). -/
def meshgridA (a b : List ℝ) : List (List ℝ) := b.map fun _ => a

/-- Second output of `jnp.meshgrid(a, b)`: row `i` is constant `b[i]`. -/
def meshgridB (a b : List ℝ) : List (List ℝ) := b.map fun bi => a.map fun _ => bi

/-- `0.5 * (M[:-1, :-1] + M[1:, 1:])`: diagonal averaging of a 2-D array. -/
def matCenter (M : List (List ℝ)) : List (List ℝ) :=
  List.zipWith (fun r r2 => List.zipWith (fun u v => 0.5 * (u + v)) r r2.tail) M M.tail

/-- The grid of points `jnp.stack((grid1_c, grid2_c), axis=-1)` at which a
pair's `log_prob` is evaluated. -/
def logProbEvalPoints (a b : List ℝ) : List (List (ℝ × ℝ)) :=
  List.zipWith (List.zipWith Prod.mk) (matCenter (meshgridA a b))
    (matCenter (meshgridB a b))

theorem mem_zipWith {α β γ : Type _} {f : α → β → γ} :
    ∀ {l1 : List α} {l2 : List β} {c : γ}, c ∈ List.zipWith f l1 l2 →
      ∃ x ∈ l1, ∃ y ∈ l2, c = f x y
  | [], _, _, h => by simp at h
  | _ :: _, [], _, h => by simp at h
  | x :: t1, y :: t2, c, h => by
    rw [List.zipWith_cons_cons] at h
    rcases List.mem_cons.mp h with rfl | h2
    · exact ⟨x, by simp, y, by simp, rfl⟩
    · obtain ⟨u, hu, v, hv, rfl⟩ := mem_zipWith h2
      exact ⟨u, List.mem_cons_of_mem _ hu, v, List.mem_cons_of_mem _ hv, rfl⟩

theorem matCenter_meshgridA (a : List ℝ) :
    ∀ b : List ℝ, matCenter (meshgridA a b) = b.tail.map fun _ => centers1d a
  | [] => rfl
  | [_] => rfl
  | x :: y :: t => by
    have ih := matCenter_meshgridA a (y :: t)
    simp only [meshgridA, List.map_cons, matCenter, List.tail_cons,
      List.zipWith_cons_cons] at ih ⊢
    rw [ih]
    rfl

theorem rowCenter_const (a : List ℝ) (u v : ℝ) :
    List.zipWith (fun p q => 0.5 * (p + q)) (a.map fun _ => u)
        ((a.map fun _ => v).tail) =
      List.replicate (a.length - 1) (0.5 * (u + v)) := by
  rw [List.map_const', List.map_const', List.tail_replicate, List.zipWith_replicate,
    Nat.min_eq_right (Nat.sub_le _ _)]

theorem matCenter_meshgridB (a : List ℝ) :
    ∀ b : List ℝ, matCenter (meshgridB a b) =
      (centers1d b).map fun c => List.replicate (a.length - 1) c
  | [] => rfl
  | [_] => rfl
  | x :: y :: t => by
    have ih := matCenter_meshgridB a (y :: t)
    simp only [meshgridB, List.map_cons, matCenter, List.tail_cons, centers1d,
      List.zipWith_cons_cons] at ih ⊢
    rw [ih, rowCenter_const]

theorem mem_centers1d_decomp {g : List ℝ} {c : ℝ} (h : c ∈ centers1d g) :
    ∃ l1 x y l2, g = l1 ++ x :: y :: l2 ∧ c = 0.5 * (x + y) := by
  induction g with
  | nil => simp [centers1d] at h
  | cons x t ih =>
    cases t with
    | nil => simp [centers1d] at h
    | cons y t2 =>
      rw [centers1d, List.tail_cons, List.zipWith_cons_cons] at h
      rcases List.mem_cons.mp h with rfl | h2
      · exact ⟨[], x, y, t2, rfl, rfl⟩
      · obtain ⟨l1, u, v, l2, heq, rfl⟩ := ih h2
        refine ⟨x :: l1, u, v, l2, ?_, rfl⟩
        rw [heq]
        rfl

theorem centers1d_not_mem_of_sorted {g : List ℝ} (hg : g.Sorted (· < ·)) :
    ∀ c ∈ centers1d g, c ∉ g := by
  intro c hc
  obtain ⟨l1, x, y, l2, rfl, rfl⟩ := mem_centers1d_decomp hc
  intro hmem
  have hpw := List.pairwise_append.mp hg
  have hc1 := List.pairwise_cons.mp hpw.2.1
  have hc2 := List.pairwise_cons.mp hc1.2
  have hx_lt_y : x < y := hc1.1 y (by simp)
  have hxc : x < 0.5 * (x + y) := by linarith
  have hcy : 0.5 * (x + y) < y := by linarith
  rcases List.mem_append.mp hmem with h1 | h2
  · have := hpw.2.2 _ h1 x (by simp)
    linarith
  · rcases List.mem_cons.mp h2 with heq | h3
    · linarith [heq.symm.le]
    · rcases List.mem_cons.mp h3 with heq2 | h4
      · linarith [heq2.symm.le]
      · have := hc2.1 _ h4
        linarith

/-- C7: in `evaluate_on_2d_grids` the log-density is evaluated only at bin
centers.  First conjunct: every point handed to a pair's `log_prob` (in the
marginalization path and the per-pair path, which average the meshgrids
identically) is a pair of 1-D bin centers.  Second conjunct: every 1-D bin
center (as used for the x marginal and the conditional data) is the average
of two successive grid edges.  Third conjunct: for strictly increasing grid
edges, no evaluation point coincides with a supplied edge. -/
theorem C7_bin_centers (a b : List ℝ) :
    (∀ row ∈ logProbEvalPoints a b, ∀ p ∈ row,
        p.1 ∈ centers1d a ∧ p.2 ∈ centers1d b) ∧
      (∀ g : List ℝ, ∀ c ∈ centers1d g,
        ∃ l1 x y l2, g = l1 ++ x :: y :: l2 ∧ c = 0.5 * (x + y)) ∧
      (∀ g : List ℝ, g.Sorted (· < ·) → ∀ c ∈ centers1d g, c ∉ g) := by
  refine ⟨?_, fun g c hc => mem_centers1d_decomp hc,
    fun g hg => centers1d_not_mem_of_sorted hg⟩
  intro row hrow p hp
  rw [logProbEvalPoints, matCenter_meshgridA, matCenter_meshgridB] at hrow
  obtain ⟨r1, hr1, r2, hr2, rfl⟩ := mem_zipWith hrow
  obtain ⟨_, _, rfl⟩ := List.mem_map.mp hr1
  obtain ⟨cb, hcb, rfl⟩ := List.mem_map.mp hr2
  obtain ⟨u, hu, v, hv, rfl⟩ := mem_zipWith hp
  exact ⟨hu, by rw [List.eq_of_mem_replicate hv]; exact hcb⟩

/-- Witness for C7 at the concrete grids `a = [0,1]`, `b = [0,1]`,
`g = [0,1,2]`: the center `0.5` of the first bin is not a grid edge. -/
theorem C7_bin_centers_witness : (0.5 * ((0 : ℝ) + 1)) ∉ ([0, 1, 2] : List ℝ) :=
  (C7_bin_centers [0, 1] [0, 1]).2.2 [0, 1, 2] (by norm_num [List.sorted_cons])
    (0.5 * ((0 : ℝ) + 1)) (by simp [centers1d])

/-! ## `ModelComponent._make_conditional_data` (model.py lines 509-519) -/

/-- `data.get(val, None)`: first value stored under the key equal to the
string `val`.  The data dictionary is keyed by CoordinateKeys (the samples
dict during sampling; the grid dict is keyed by plain names, embedded as
single keys), and a string equals only the single key of that name. -/
def dataGet {V : Type} (data : List (CKey × V)) (name : PyStr) : Option V :=
  (data.find? fun e => decide (e.1 = CKey.single name)).map Prod.snd

/-- `ModelComponent._make_conditional_data(data)`: for every declared key,
each conditional argument is resolved with `data.get(val, None)` - a total
function, never an error. -/
def make_conditional_data {V : Type} (coordDistKeys : List CKey)
    (conditional_data : List (CKey × List (PyStr × PyStr)))
    (data : List (CKey × V)) : List (CKey × List (PyStr × Option V)) :=
  coordDistKeys.map fun k =>
    (k, (condLookup conditional_data k).map fun av => (av.1, dataGet data av.2))

/-- Grid evaluation call site (model.py lines 112-113): conditional data is
built from the 1-D bin centers of the supplied grids. -/
def evalGridConditionalData (coordDistKeys : List CKey)
    (conditional_data : List (CKey × List (PyStr × PyStr)))
    (grids : List (CKey × List ℝ)) : List (CKey × List (PyStr × Option (List ℝ))) :=
  make_conditional_data coordDistKeys conditional_data
    (grids.map fun e => (e.1, centers1d e.2))

/-- Sampling call site (model.py line 610): conditional data is built from
the samples drawn so far. -/
def sampleConditionalData {V : Type} (coordDistKeys : List CKey)
    (conditional_data : List (CKey × List (PyStr × PyStr)))
    (samples : List (CKey × V)) : List (CKey × List (PyStr × Option V)) :=
  make_conditional_data coordDistKeys conditional_data samples

/-- C10: when a conditional argument's source coordinate is absent from the
supplied data mapping, `_make_conditional_data` silently stores `None` for
that argument instead of raising.  The statement is generic in the value
type and the data mapping, so it covers both call sites
(`evalGridConditionalData` and `sampleConditionalData` are instances). -/
theorem C10_missing_source_gives_none {V : Type} (coordDistKeys : List CKey)
    (conditional_data : List (CKey × List (PyStr × PyStr))) (data : List (CKey × V))
    (k : CKey) (arg src : PyStr)
    (hk : k ∈ coordDistKeys) (hav : (arg, src) ∈ condLookup conditional_data k)
    (habsent : dataGet data src = none) :
    ∃ m, (k, m) ∈ make_conditional_data coordDistKeys conditional_data data ∧
      (arg, (none : Option V)) ∈ m := by
  refine ⟨(condLookup conditional_data k).map fun av => (av.1, dataGet data av.2),
    ?_, ?_⟩
  · exact List.mem_map.mpr ⟨k, hk, rfl⟩
  · exact List.mem_map.mpr ⟨(arg, src), hav, by simp [habsent]⟩

/-- Witness for C10: coordinate `x` reads argument `a` from coordinate `m`,
and the supplied data mapping is empty. -/
theorem C10_missing_source_gives_none_witness :
    ∃ m, (CKey.single ['x'], m) ∈ make_conditional_data [CKey.single ['x']]
        [(CKey.single ['x'], [(['a'], ['m'])])] ([] : List (CKey × Nat)) ∧
      (['a'], (none : Option Nat)) ∈ m :=
  C10_missing_source_gives_none [CKey.single ['x']]
    [(CKey.single ['x'], [(['a'], ['m'])])] [] (CKey.single ['x']) ['a'] ['m']
    (by decide) (by decide) (by decide)

/-! ## Validation prefix of `ModelMixin.evaluate_on_2d_grids` (model.py
lines 80-109)

In order: resolve the x coordinate (line 80); reject an x coordinate that is
not a coordinate name (lines 82-84); fill in default grid pairs (lines
86-90); reject any pair whose first coordinate differs from x (lines
92-100); reject any pair containing an unknown coordinate name (lines
103-107).  Only after all checks does evaluation work start (meshes,
conditional data, distributions, `log_prob`); that work is abstracted as a
continuation receiving the validated pairs. -/

inductive EvalError where
  | invalidCoordName (n : PyStr)
  | xAxisMismatch
deriving DecidableEq, Repr

/-- `x_coord_name = self.default_x_coord if x_coord_name is None else
x_coord_name`. -/
def resolveXCoord (default_x : PyStr) (x_coord_name : Option PyStr) : PyStr :=
  x_coord_name.getD default_x

/-- Default pairs: the x coordinate paired with `self._coord_names[1:]`. -/
def defaultGridCoordNames (x : PyStr) (coord_names : List PyStr) :
    List (PyStr × PyStr) :=
  (coord_names.drop 1).map fun c => (x, c)

/-- The first name of a requested pair that is not a coordinate of the
model, scanning pairs in order and each pair left to right (the loop of
lines 103-107). -/
def firstInvalidPairName (coord_names : List PyStr) (gcn : List (PyStr × PyStr)) :
    Option PyStr :=
  gcn.findSome? fun p =>
    if p.1 ∉ coord_names then some p.1
    else if p.2 ∉ coord_names then some p.2
    else none

/-- `evaluate_on_2d_grids`, split into its validation prefix and an opaque
continuation `evalWork` standing for everything from line 109 on. -/
def evaluate_on_2d_grids_checked {α : Type} (coord_names : List PyStr)
    (default_x : PyStr) (grid_coord_names : Option (List (PyStr × PyStr)))
    (x_coord_name : Option PyStr) (evalWork : List (PyStr × PyStr) → α) :
    Except EvalError α :=
  let x := resolveXCoord default_x x_coord_name
  if x ∉ coord_names then .error (.invalidCoordName x)
  else
    let gcn := grid_coord_names.getD (defaultGridCoordNames x coord_names)
    if ¬ gcn.all (fun p => decide (p.1 = x)) then .error .xAxisMismatch
    else
      match firstInvalidPairName coord_names gcn with
      | some n => .error (.invalidCoordName n)
      | none => .ok (evalWork gcn)

/-- C8: whenever a requested grid pair's first coordinate differs from the
(resolved) x coordinate, or a requested pair names an unknown coordinate,
`evaluate_on_2d_grids` raises an invalid-argument error before any density
evaluation work begins: the result is an error for EVERY continuation
`evalWork`, which is never invoked. -/
theorem C8_invalid_request_errors {α : Type} (coord_names : List PyStr)
    (default_x : PyStr) (gcn : List (PyStr × PyStr)) (x_coord_name : Option PyStr)
    (hbad : ∃ p ∈ gcn, p.1 ≠ resolveXCoord default_x x_coord_name ∨
      p.1 ∉ coord_names ∨ p.2 ∉ coord_names) :
    ∀ evalWork : List (PyStr × PyStr) → α, ∃ e,
      evaluate_on_2d_grids_checked coord_names default_x (some gcn) x_coord_name
        evalWork = .error e := by
  intro evalWork
  obtain ⟨p, hp, hbadp⟩ := hbad
  rw [evaluate_on_2d_grids_checked]
  simp only [Option.getD_some]
  by_cases hx : resolveXCoord default_x x_coord_name ∉ coord_names
  · exact ⟨_, by rw [if_pos hx]⟩
  · rw [if_neg hx]
    rw [not_not] at hx
    by_cases hall : gcn.all (fun p => decide (p.1 = resolveXCoord default_x x_coord_name)) = true
    · have hpx : p.1 = resolveXCoord default_x x_coord_name :=
        of_decide_eq_true (List.all_eq_true.mp hall p hp)
      have hinv : p.2 ∉ coord_names := by
        rcases hbadp with h | h | h
        · exact absurd hpx h
        · exact absurd (hpx ▸ hx) h
        · exact h
      have hfind : firstInvalidPairName coord_names gcn ≠ none := by
        rw [firstInvalidPairName]
        intro hnone
        have := List.findSome?_eq_none_iff.mp hnone p hp
        by_cases h1 : p.1 ∉ coord_names
        · rw [if_pos h1] at this
          exact Option.noConfusion this
        · rw [if_neg h1, if_pos hinv] at this
          exact Option.noConfusion this
      rw [if_neg (by rw [hall]; simp)]
      cases hf : firstInvalidPairName coord_names gcn with
      | none => exact absurd hf hfind
      | some n => exact ⟨.invalidCoordName n, by simp [hf]⟩
    · exact ⟨.xAxisMismatch, by rw [if_pos hall]⟩

/-- Witness for C8: the pair `("x","w")` names the unknown coordinate `"w"`;
the call errors for the concrete continuation as well. -/
theorem C8_invalid_request_errors_witness :
    ∃ e, evaluate_on_2d_grids_checked [['x'], ['y']] ['x']
        (some [(['x'], ['w'])]) none (fun _ => (0 : Nat)) = .error e :=
  C8_invalid_request_errors [['x'], ['y']] ['x'] [(['x'], ['w'])] none
    ⟨(['x'], ['w']), by decide, by decide⟩ (fun _ => (0 : Nat))

/-! ## Random-key discipline in `ModelComponent.sample` (model.py lines 601-614)

jax's `random.split(key, n)` derives subkey i from the pair (key, i) alone:
`threefry_split` hashes the key against the counter pair (2i, 2i+1), so
`split(key, n)[i] == split(key, m)[i]` whenever `i < min(n, m)`.  Derived
keys are therefore modelled as derivation paths: splitting appends the
child index.  numpyro's `handlers.seed` stores the key and, at each sample
site, replaces its state and the site key by `random.split(state)` (indices
0 and 1).

`ModelComponent.sample(key, ...)` passes the SAME input `key` both to
`seed(self.make_dists, key)` (line 602, taken when `pars is None`) and to
`jax.random.split(key, len(self.coord_distributions))` (line 606) for the
per-coordinate draws. -/

/-- A PRNG key, identified by its derivation path from the input key. -/
abbrev RKey := List Nat

/-- `jax.random.split(key, n)`: subkey i depends only on `(key, i)`. -/
def splitKey (k : RKey) (n : Nat) : List RKey :=
  (List.range n).map fun i => k ++ [i]

/-- The site keys consumed by `m` prior draws under `handlers.seed(f, key)`:
at each sample site, `state, site_key = random.split(state)`. -/
def seedSiteKeys (k : RKey) : Nat → List RKey
  | 0 => []
  | m + 1 => (k ++ [1]) :: seedSiteKeys (k ++ [0]) m

/-- All keys handed to stochastic consumers during
`ModelComponent.sample(key, shape, pars)`: the prior-draw site keys when
`pars is None`, followed by the per-coordinate keys
`jax.random.split(key, len(coord_distributions))`. -/
def sampleConsumerKeys (key : RKey) (nCoords nPriorSites : Nat)
    (parsIsNone : Bool) : List RKey :=
  (if parsIsNone then seedSiteKeys key nPriorSites else []) ++ splitKey key nCoords

/-- C5 fails on the code: with `pars=None`, one prior-drawn parameter and
two coordinates, the first prior draw's site key `split(key, 2)[1]` equals
`split(key, n)[1]`, the key given to the second coordinate's `sample` call,
so two independent draws consume the identical key.  With `pars` supplied
(no seeding) the per-coordinate keys are all distinct. -/
theorem C5_key_reuse :
    sampleConsumerKeys [0] 2 1 true = [[0, 1], [0, 0], [0, 1]] ∧
      ¬ (sampleConsumerKeys [0] 2 1 true).Nodup ∧
      (sampleConsumerKeys [0] 2 0 false).Nodup ∧
      (sampleConsumerKeys [0] 2 1 false).Nodup := by
  decide

/-! ## Mixture combination: `ComponentMixtureModel.evaluate_on_2d_grids`
(model.py lines 692-721)

Per requested pair, the per-component log-density surfaces are collected in
component order and combined pointwise with
`jax.scipy.special.logsumexp(jnp.array(v).T, axis=-1, b=pars["mixture-probs"]).T`;
the two transposes cancel and the reduction runs over the component axis, so
at every grid point the computation is the weighted log-sum-exp
`log(sum_k b_k * exp(x_k))`. -/

/-- `jax.scipy.special.logsumexp(x, b=b)`: `log (Σ_k b_k * exp x_k)`. -/
noncomputable def weightedLogSumExp (b x : List ℝ) : ℝ :=
  Real.log (((b.zip x).map fun p => p.1 * Real.exp p.2).sum)

/-- Unweighted log-sum-exp, the form the spec's formula uses. -/
noncomputable def specLogSumExp (x : List ℝ) : ℝ :=
  Real.log ((x.map Real.exp).sum)

/-- The mixture's combined log-density surface: each component's surface is
an abstract function of grid points (that component's own
`evaluate_on_2d_grids` output for the pair), combined pointwise over the
component axis. -/
noncomputable def mixtureCombine {ι : Type} (probs : List ℝ)
    (componentTerms : List (ι → ℝ)) : ι → ℝ :=
  fun pt => weightedLogSumExp probs (componentTerms.map fun f => f pt)

/-- C3: for positive mixing weights the combined surface equals
`logsumexp_k(log w_k + log p_k(point))` at every point, and for the
2-component mixture with weights `[1, 0]` it equals the first component's
own surface exactly. -/
theorem C3_mixture_logsumexp {ι : Type} (probs : List ℝ) (terms : List (ι → ℝ))
    (pt : ι) (hpos : ∀ w ∈ probs, 0 < w) :
    mixtureCombine probs terms pt =
        specLogSumExp ((probs.zip terms).map fun p => Real.log p.1 + p.2 pt) ∧
      ∀ (e1 e2 : ι → ℝ) (q : ι), mixtureCombine [1, 0] [e1, e2] q = e1 q := by
  constructor
  · rw [mixtureCombine, weightedLogSumExp, specLogSumExp, List.zip_map_right,
      List.map_map, List.map_map]
    refine congrArg Real.log (congrArg List.sum (List.map_congr_left fun p hp => ?_))
    have hp1 : 0 < p.1 := hpos p.1 (List.of_mem_zip hp).1
    simp [Function.comp, Real.exp_add, Real.exp_log hp1]
  · intro e1 e2 q
    rw [mixtureCombine, weightedLogSumExp]
    simp [Real.log_exp]

/-- Witness for C3 at a concrete one-component mixture with weight 1. -/
theorem C3_mixture_logsumexp_witness :
    (mixtureCombine [(1 : ℝ)] [fun _ : Unit => (0 : ℝ)] () =
        specLogSumExp ((([(1 : ℝ)]).zip [fun _ : Unit => (0 : ℝ)]).map
          fun p => Real.log p.1 + p.2 ())) ∧
      ∀ (e1 e2 : Unit → ℝ) (q : Unit), mixtureCombine [1, 0] [e1, e2] q = e1 q :=
  C3_mixture_logsumexp [(1 : ℝ)] [fun _ : Unit => (0 : ℝ)] ()
    (by
      intro w hw
      rw [List.mem_singleton] at hw
      rw [hw]
      norm_num)

/-! ## TruncatedGridGMM truncation constants (truncatedgridgmm.py lines
113-127)

Construction precomputes, per component k, `_log_diff_tail_probs[k]`: for
each dimension d, with `sign = where(locs[k,d] >= low[d], 1.0, -1.0)`, it
adds `log(sign * (cdf(loc - sign*(loc - high)) - cdf(loc - sign*(loc -
low))))` where `cdf` is the Normal(loc, scale) cumulative distribution
function, `Φ((x - loc)/scale)`. -/

/-- The standard normal cumulative distribution function. -/
noncomputable def stdNormalCdf (z : ℝ) : ℝ :=
  ∫ t in Set.Iic z, Real.exp (-(1 / 2) * t ^ 2) / Real.sqrt (2 * Real.pi)

theorem gaussPdf_integrable :
    MeasureTheory.Integrable
      (fun t : ℝ => Real.exp (-(1 / 2) * t ^ 2) / Real.sqrt (2 * Real.pi)) :=
  (integrable_exp_neg_mul_sq (by norm_num : (0 : ℝ) < 1 / 2)).div_const _

theorem gaussPdf_integral_total :
    (∫ t : ℝ, Real.exp (-(1 / 2) * t ^ 2) / Real.sqrt (2 * Real.pi)) = 1 := by
  rw [MeasureTheory.integral_div, integral_gaussian,
    show Real.pi / (1 / 2 : ℝ) = 2 * Real.pi by ring, div_self]
  exact Real.sqrt_ne_zero'.mpr (by positivity)

theorem stdNormalCdf_neg (z : ℝ) : stdNormalCdf (-z) = 1 - stdNormalCdf z := by
  have hint := gaussPdf_integrable
  have h1 : stdNormalCdf (-z)
      = ∫ t in Set.Ioi z, Real.exp (-(1 / 2) * t ^ 2) / Real.sqrt (2 * Real.pi) := by
    have hcn := integral_comp_neg_Iic (-z)
      (fun t => Real.exp (-(1 / 2) * t ^ 2) / Real.sqrt (2 * Real.pi))
    rw [neg_neg] at hcn
    rw [stdNormalCdf, ← hcn]
    simp [neg_sq]
  have h2 : stdNormalCdf z
      + (∫ t in Set.Ioi z, Real.exp (-(1 / 2) * t ^ 2) / Real.sqrt (2 * Real.pi))
      = ∫ t : ℝ, Real.exp (-(1 / 2) * t ^ 2) / Real.sqrt (2 * Real.pi) :=
    intervalIntegral.integral_Iic_add_Ioi hint.integrableOn hint.integrableOn
  have h3 := gaussPdf_integral_total
  rw [h1]
  linarith

/-- `numpyro.distributions.Normal(loc, scale).cdf(x)`: the standard normal
CDF of the standardized value. -/
noncomputable def normalCdf (loc scale x : ℝ) : ℝ := stdNormalCdf ((x - loc) / scale)

theorem normalCdf_reflect (loc scale x : ℝ) :
    normalCdf loc scale (loc - (x - loc)) = 1 - normalCdf loc scale x := by
  rw [normalCdf, normalCdf,
    show (loc - (x - loc) - loc) / scale = -((x - loc) / scale) by ring,
    stdNormalCdf_neg]

/-- One `(k, d)` term of the construction loop (truncatedgridgmm.py lines
116-127). -/
noncomputable def logDiffTailProbTerm (loc scale low high : ℝ) : ℝ :=
  let sign : ℝ := if low ≤ loc then 1 else -1
  Real.log (sign * (normalCdf loc scale (loc - sign * (loc - high))
    - normalCdf loc scale (loc - sign * (loc - low))))

/-- `self._log_diff_tail_probs[k]`: sum of the per-dimension terms. -/
noncomputable def logDiffTailProbs (D : Nat) (locs scales : Nat → Nat → ℝ)
    (low high : Nat → ℝ) (k : Nat) : ℝ :=
  ∑ d ∈ Finset.range D, logDiffTailProbTerm (locs k d) (scales k d) (low d) (high d)

theorem logDiffTailProbTerm_eq (loc scale low high : ℝ) :
    logDiffTailProbTerm loc scale low high =
      Real.log (normalCdf loc scale high - normalCdf loc scale low) := by
  rw [logDiffTailProbTerm]
  by_cases h : low ≤ loc
  · simp only [if_pos h, one_mul]
    rw [sub_sub_cancel, sub_sub_cancel]
  · simp only [if_neg h]
    rw [show loc - (-1) * (loc - high) = loc - (high - loc) by ring,
      show loc - (-1) * (loc - low) = loc - (low - loc) by ring,
      normalCdf_reflect, normalCdf_reflect]
    congr 1
    ring

/-- C4: each `(k, d)` term of the precomputed log-normalization constant
equals `log(cdf(high_d) - cdf(low_d))` for `Normal(locs[k,d], scales[k,d])`
whichever sign-correction branch is taken, and the per-component constant is
the sum of those logs over dimensions. -/
theorem C4_log_diff_tail_probs (D : Nat) (locs scales : Nat → Nat → ℝ)
    (low high : Nat → ℝ) (k : Nat) :
    (∀ loc scale lo hi : ℝ, logDiffTailProbTerm loc scale lo hi =
        Real.log (normalCdf loc scale hi - normalCdf loc scale lo)) ∧
      logDiffTailProbs D locs scales low high k =
        ∑ d ∈ Finset.range D,
          Real.log (normalCdf (locs k d) (scales k d) (high d)
            - normalCdf (locs k d) (scales k d) (low d)) := by
  refine ⟨fun loc scale lo hi => logDiffTailProbTerm_eq loc scale lo hi, ?_⟩
  exact Finset.sum_congr rfl fun d _ =>
    logDiffTailProbTerm_eq (locs k d) (scales k d) (low d) (high d)
